import Mathlib

/-!
Verification of the multithreading-benchmark repository against its design
specification.

The repository is a thin HTTP demo over a worker-pool library; the demo code
lives in src/dist (transpiled) and src/unnamed (original TypeScript).  The
concurrency core itself (spawn, move, Mutex, Barrier, SharedJsonBuffer) is an
external dependency whose code is not in the repository; where a claim is
decided by that core, the definitions below are modelled from the words of the
specification (their doc comments say so).  Everything else is translated from
the source files.

Numbers: JS numeric fields that only ever hold non-negative integers in the
modelled paths (counters, sizes, round ids) are embedded as Nat; the Fibonacci
workload, whose inputs may be negative, is embedded on Int.
-/

namespace MTBench

/-! ## Fibonacci (src/dist/server.js lines 93 to 99, src/dist/worker.js lines 101 to 105) -/

/-- Fibonacci exactly as defined inside the GET /single route handler of
src/dist/server.js: `(n) => { if (n < 2) return n; return fibonacci(n-1) + fibonacci(n-2) }`. -/
def fibServer (n : Int) : Int :=
  if n < 2 then n
  else fibServer (n - 1) + fibServer (n - 2)
termination_by n.toNat
decreasing_by
  all_goals omega

/-- Fibonacci exactly as defined inside the spawned worker closure of
src/dist/worker.js: `(num) => { if (num < 2) return num; return fibonacci(num-1) + fibonacci(num-2) }`. -/
def fibWorker (num : Int) : Int :=
  if num < 2 then num
  else fibWorker (num - 1) + fibWorker (num - 2)
termination_by num.toNat
decreasing_by
  all_goals omega

/-! ## Shared statistics value (src/dist/shared-state.js lines 74 to 81 and 138 to 156) -/

/-- The SystemStats shape of src/unnamed/part_002 lines 26 to 44.  The
workerTaskCount record is an association list keyed by worker id; lastUpdated
and currentLeader are nullable strings. -/
structure SystemStats where
  totalRequests : Nat
  totalComputeTime : Nat
  workerTaskCount : List (String × Nat)
  lastUpdated : Option String
  activeWorkers : Nat
  currentLeader : Option String
  deriving DecidableEq, Repr

/-- initialStats of src/dist/shared-state.js lines 74 to 81: every counter 0,
empty mapping, null timestamp and leader. -/
def initialStats : SystemStats :=
  { totalRequests := 0
    totalComputeTime := 0
    workerTaskCount := []
    lastUpdated := none
    activeWorkers := 0
    currentLeader := none }

/-- resetSystemStats of src/dist/shared-state.js lines 138 to 156: under the
mutex it assigns each field of the shared state in place; `now` stands for the
string new Date().toISOString() produces at the moment of the reset. -/
def resetSystemStats (s : SystemStats) (now : String) : SystemStats :=
  { s with
    totalRequests := 0
    totalComputeTime := 0
    workerTaskCount := []
    lastUpdated := some now
    activeWorkers := 0
    currentLeader := none }

/-! ## Snapshot aliasing (src/dist/shared-state.js lines 119 to 133)

JS objects are references into a heap.  Property reads on the mutex-guarded
shared state hand back write-through views of nested objects: worker.js
updates `state.workerTaskCount[workerId]` in place and those updates persist,
so the nested mapping behaves as a shared reference.  The heap below makes
that explicit: a StatsObj holds its nested workerTaskCount object as a
reference into the heap. -/

/-- Heap of nested workerTaskCount objects, addressed by Nat references. -/
structure StatsHeap where
  maps : Nat → List (String × Nat)
  next : Nat

/-- Shared statistics object whose nested workerTaskCount mapping is a heap
reference. -/
structure StatsObj where
  totalRequests : Nat
  totalComputeTime : Nat
  workerTaskCountRef : Nat
  lastUpdated : Option String
  activeWorkers : Nat
  currentLeader : Option String
  deriving DecidableEq, Repr

/-- getSystemStatsSnapshot of src/dist/shared-state.js lines 119 to 133: under
the mutex it returns `\x7b ...guard.value \x7d`, a shallow spread.  Each
top-level field is copied by value; the nested workerTaskCount object is
copied as a reference (JS spread does not clone nested objects). -/
def getSystemStatsSnapshot (shared : StatsObj) : StatsObj :=
  { totalRequests := shared.totalRequests
    totalComputeTime := shared.totalComputeTime
    workerTaskCountRef := shared.workerTaskCountRef
    lastUpdated := shared.lastUpdated
    activeWorkers := shared.activeWorkers
    currentLeader := shared.currentLeader }

/-- Write `obj[key] = v` on the workerTaskCount object behind reference
`ref`. -/
def heapWrite (h : StatsHeap) (ref : Nat) (key : String) (v : Nat) : StatsHeap :=
  { h with maps := fun i => if i = ref then (key, v) :: h.maps i else h.maps i }

/-- Read `obj[key]` on the workerTaskCount object behind reference `ref`. -/
def heapRead (h : StatsHeap) (ref : Nat) (key : String) : Option Nat :=
  (h.maps ref).lookup key

/-- Modelled from the spec: the deep-copy snapshot the specification asks for
("Read snapshots are deep copies to prevent external aliasing").  The nested
mapping is copied into a fresh heap cell, so the snapshot holds a reference no
one else holds. -/
def getSystemStatsSnapshotDeep (shared : StatsObj) (h : StatsHeap) :
    StatsObj × StatsHeap :=
  ({ getSystemStatsSnapshot shared with workerTaskCountRef := h.next },
   { maps := fun i => if i = h.next then h.maps shared.workerTaskCountRef else h.maps i
     next := h.next + 1 })

/-! ## Scoped disposal (the __disposeResources machinery inlined at the top of
src/dist/worker.js and src/dist/shared-state.js, used by createWorkerTask at
src/dist/worker.js lines 125 and 164 to 172) -/

/-- JS error values as the disposal machinery sees them: a plain thrown value,
or a SuppressedError wrapping the error thrown by a dispose call together with
the error that was already pending. -/
inductive JsError (ε : Type) where
  | plain (e : ε)
  | suppressedErr (later : ε) (prior : JsError ε)
  deriving DecidableEq, Repr

/-- One entry of env.stack as __addDisposableResource pushes it: the resource
identity (for the mutex guard this is the lock) and, since a dispose call may
itself throw, the error its dispose raises when it does. -/
structure DisposableEntry (σ ε : Type) where
  rid : σ
  disposeErr : Option ε
  deriving DecidableEq, Repr

/-- The synchronous loop of __disposeResources (src/dist/worker.js lines 41 to
66, async flags false): pop each stacked resource, call its dispose once, and
on a dispose error run `fail`, which replaces the pending error by a
SuppressedError chaining the new error over it.  The first component lists the
dispose calls made, in order; the second is the error state when the loop
ends.  The list head is the top of the stack (the most recently pushed
resource), matching env.stack.pop(). -/
def disposeResources {σ ε : Type} :
    List (DisposableEntry σ ε) → Option (JsError ε) → List σ × Option (JsError ε)
  | [], err => ([], err)
  | r :: rest, err =>
      let err2 : Option (JsError ε) :=
        match r.disposeErr with
        | none => err
        | some e =>
            match err with
            | none => some (.plain e)
            | some prior => some (.suppressedErr e prior)
      let out := disposeResources rest err2
      (r.rid :: out.1, out.2)

/-- The guarded section of createWorkerTask (src/dist/worker.js lines 95 to
171): env starts with an empty stack, __addDisposableResource pushes the mutex
guard, the body either returns a value or throws, the catch clause records a
thrown error into env, and the finally clause runs __disposeResources, which
rethrows the recorded (possibly suppressed) error.  Returns the overall
outcome and the list of dispose calls made.  (The `.ok none` arm is dead code
that only makes the match total: when the body throws, the error state
entering the disposal loop is already set and the loop never clears it.) -/
def runGuarded {σ ε α : Type} (guard : DisposableEntry σ ε) (body : Except ε α) :
    Except (JsError ε) (Option α) × List σ :=
  match body with
  | .ok a =>
      let out := disposeResources [guard] none
      (match out.2 with
       | none => .ok (some a)
       | some e => .error e, out.1)
  | .error e =>
      let out := disposeResources [guard] (some (.plain e))
      (match out.2 with
       | none => .ok none
       | some e2 => .error e2, out.1)

/-! ## Transferable buffer (spec section 4.1; src/dist/worker.js line 94 and
src/dist/server.js lines 146 to 157 call move / transfer through the external
library, whose code is not in the repository) -/

/-- Modelled from the spec: the ownership record of one transferable buffer.
What is missing from src is the library implementation of move / transfer /
materialize; spec section 4.1 defines transfer as invalidating the source and
producing a token consumable exactly once, and materialize as reconstructing a
buffer owned by the receiver. -/
structure BufState where
  moved : Bool
  tokenLive : Bool
  materialized : Bool
  deriving DecidableEq, Repr

/-- Errors of the transfer protocol (spec section 7 taxonomy). -/
inductive BufError where
  | alreadyTransferred
  | tokenConsumed
  deriving DecidableEq, Repr

/-- A freshly created buffer: owned by the submitter, nothing in flight. -/
def BufState.fresh : BufState :=
  { moved := false, tokenLive := false, materialized := false }

/-- Modelled from the spec: transfer invalidates the source buffer and
produces a token; calling transfer on an already-transferred buffer fails with
AlreadyTransferredError. -/
def BufState.transfer (b : BufState) : Except BufError BufState :=
  if b.moved then .error .alreadyTransferred
  else .ok { moved := true, tokenLive := true, materialized := false }

/-- Modelled from the spec: materialize consumes the token exactly once and
hands ownership to the receiver; a second materialize finds no live token. -/
def BufState.materialize (b : BufState) : Except BufError BufState :=
  if b.tokenLive then .ok { b with tokenLive := false, materialized := true }
  else .error .tokenConsumed

/-- The submitting side may access the bytes only while the buffer has not
been moved. -/
def BufState.submitterAccess (b : BufState) : Bool := !b.moved

/-- The receiving side may access the bytes only once it has materialized
them. -/
def BufState.receiverAccess (b : BufState) : Bool := b.materialized

/-- How many sides can reach the byte storage: never more than one means the
storage is not duplicated. -/
def BufState.accessCount (b : BufState) : Nat :=
  (if b.submitterAccess then 1 else 0) + (if b.receiverAccess then 1 else 0)

/-- Successful protocol moves (failed calls leave the state unchanged, so only
successes change ownership). -/
inductive BufStep : BufState → BufState → Prop where
  | transferOk (b b2 : BufState) : b.transfer = .ok b2 → BufStep b b2
  | materializeOk (b b2 : BufState) : b.materialize = .ok b2 → BufStep b b2

/-- States the protocol can reach from a fresh buffer. -/
def BufReachable : BufState → Prop := Relation.ReflTransGen BufStep BufState.fresh

/-! ## Task handle (spec sections 3 and 4.4; src/dist/server.js line 159 calls
handle.join through the external library, whose code is not in the repository) -/

/-- Modelled from the spec: the lifecycle of a task handle, Pending to Running
to Completed(result) or Failed(error). -/
inductive HandleStatus (ρ ε : Type) where
  | pending
  | running
  | completed (r : ρ)
  | failed (e : ε)
  deriving DecidableEq, Repr

/-- Modelled from the spec: the only lifecycle moves; Completed and Failed are
terminal, with no outgoing move. -/
inductive HandleStep {ρ ε : Type} : HandleStatus ρ ε → HandleStatus ρ ε → Prop where
  | start : HandleStep .pending .running
  | complete (r : ρ) : HandleStep .running (.completed r)
  | fail (e : ε) : HandleStep .running (.failed e)

/-- Modelled from the spec: what a join call observes on a handle in a given
status; a structured ok / err Result once the handle is terminal, nothing
while it is still in flight (the join is then still suspended). -/
def joinOutcome {ρ ε : Type} : HandleStatus ρ ε → Option (Except ε ρ)
  | .completed r => some (.ok r)
  | .failed e => some (.error e)
  | _ => none

/-- A handle status is terminal once completed or failed. -/
def HandleStatus.terminal {ρ ε : Type} (s : HandleStatus ρ ε) : Prop :=
  (∃ r, s = .completed r) ∨ (∃ e, s = .failed e)

/-! ## Cyclic barrier (spec sections 3 and 4.3; src/dist/shared-state.js lines
105 to 111 construct the Barrier and src/dist/worker.js line 143 awaits
bar.wait(), but the Barrier implementation is the external library and is not
in the repository) -/

/-- What a barrier wait call resolves or rejects with.  Released carries the
isLeader flag and the round id (spec section 4.3, wait() to isLeader and
round); timedOut is the BarrierTimeoutError rejection of a stalled round
(spec sections 4.3 and 7). -/
inductive BarrierOutcome where
  | released (isLeader : Bool) (round : Nat)
  | timedOut (round : Nat)
  deriving DecidableEq, Repr

/-- Modelled from the spec: the state of the cyclic barrier.  What is missing
from src is the library Barrier; spec section 3 fixes a participantCount set
once at construction, an arrived counter for the current round and a round
identifier, and section 4.3 adds the configurable timeout.  The suspended
waiters of the current round are kept as the list `pending` in arrival order
(so the arrived counter of the spec is `pending.length`), and `now` counts
elapsed time in the current round in discrete ticks. -/
structure BarrierSt (ι : Type) where
  participantCount : Nat
  timeoutMs : Nat
  round : Nat
  now : Nat
  pending : List ι
  deriving Repr

/-- A barrier as constructed (src/dist/shared-state.js line 105): round 0, no
arrivals, clock at 0. -/
def BarrierSt.mk0 (ι : Type) (k timeout : Nat) : BarrierSt ι :=
  { participantCount := k, timeoutMs := timeout, round := 0, now := 0, pending := [] }

/-- Modelled from the spec: one wait() arrival (spec section 4.3).  If this
arrival makes arrived reach participantCount, the round completes: every
suspended waiter resolves with isLeader false, the arriving call resolves with
isLeader true (the call whose arrival completes the round is the leader), and
the barrier resets for the next round (arrived back to 0, round incremented,
round clock restarted).  Otherwise the caller joins the suspended waiters.
Returns the new state and the wait calls resolved by this arrival. -/
def BarrierSt.wait {ι : Type} (b : BarrierSt ι) (i : ι) :
    BarrierSt ι × List (ι × BarrierOutcome) :=
  if b.pending.length + 1 = b.participantCount then
    ({ b with round := b.round + 1, now := 0, pending := [] },
     b.pending.map (fun p => (p, .released false b.round)) ++ [(i, .released true b.round)])
  else
    ({ b with pending := b.pending ++ [i] }, [])

/-- Modelled from the spec: one discrete millisecond of wall-clock time.  When
the configured timeout elapses on a round that has arrivals but has not
completed, every pending waiter of that round rejects with
BarrierTimeoutError and the barrier moves to the next round (spec section 4.3:
the timeout fails all pending waiters in that round rather than hanging
forever). -/
def BarrierSt.tick {ι : Type} (b : BarrierSt ι) :
    BarrierSt ι × List (ι × BarrierOutcome) :=
  if b.timeoutMs ≤ b.now + 1 then
    if b.pending.isEmpty then ({ b with now := b.now + 1 }, [])
    else
      ({ b with round := b.round + 1, now := 0, pending := [] },
       b.pending.map (fun p => (p, .timedOut b.round)))
  else ({ b with now := b.now + 1 }, [])

/-- A sequence of wait() arrivals, in order, accumulating the resolved calls. -/
def BarrierSt.waitAll {ι : Type} (b : BarrierSt ι) :
    List ι → BarrierSt ι × List (ι × BarrierOutcome)
  | [] => (b, [])
  | i :: rest =>
      let step := b.wait i
      let out := step.1.waitAll rest
      (out.1, step.2 ++ out.2)

/-- `m` ticks of the round clock, accumulating the rejected calls. -/
def BarrierSt.runTicks {ι : Type} (b : BarrierSt ι) :
    Nat → BarrierSt ι × List (ι × BarrierOutcome)
  | 0 => (b, [])
  | m + 1 =>
      let step := b.tick
      let out := step.1.runTicks m
      (out.1, step.2 ++ out.2)

/-- True exactly on a wait call that resolved as leader. -/
def isLeaderOutcome : BarrierOutcome → Bool
  | .released true _ => true
  | _ => false

/-! ## Async mutex guarding the shared counter (spec sections 3, 4.2 and 8;
src/dist/shared-state.js line 95 constructs the Mutex, src/dist/worker.js
lines 125 to 136 lock it and update totalRequests, but the Mutex
implementation is the external library and is not in the repository) -/

/-- The control point of one worker task in the increment scenario of
src/dist/worker.js lines 125 to 136: before lock(), suspended in the FIFO
queue, holding the lock about to read totalRequests, holding it having read
(the JS increment `state.totalRequests++` is a read of the field followed by a
write of the read value plus one), holding it having written, and finished
(lock released). -/
inductive TaskPhase where
  | idle
  | waiting
  | locked
  | readDone
  | writeDone
  | finished
  deriving DecidableEq, Repr

/-- Modelled from the spec: the async mutex with its FIFO queue of suspended
waiters (spec section 4.2), wrapped together with the n worker tasks of the
increment scenario.  What is missing from src is the library Mutex; the spec
fixes: at most one holder at any time, waiters queued and resumed in arrival
order upon release.  `counter` is the shared totalRequests field and
`localVal i` the value task i read from it inside its critical section. -/
structure MutexSys (n : Nat) where
  phase : Fin n → TaskPhase
  holder : Option (Fin n)
  queue : List (Fin n)
  counter : Nat
  localVal : Fin n → Nat

/-- All tasks idle, lock free, counter 0 (the mutex-guarded counter starts at
0). -/
def MutexSys.init (n : Nat) : MutexSys n :=
  { phase := fun _ => .idle
    holder := none
    queue := []
    counter := 0
    localVal := fun _ => 0 }

/-- Task i holds the lock: it is inside its critical section. -/
def MutexSys.inCritical {n : Nat} (s : MutexSys n) (i : Fin n) : Prop :=
  s.phase i = .locked ∨ s.phase i = .readDone ∨ s.phase i = .writeDone

/-- One atomic event of the system, any interleaving allowed.  lockFree and
lockBusy are the two outcomes of an await lock() call (grab a free lock, or
suspend at the back of the FIFO queue); readStep and writeStep are the two
halves of `state.totalRequests++` run while holding the lock; releaseFree and
releaseNext are the unlock performed by the scope-exit disposal of the guard,
waking the longest-waiting suspended acquirer if there is one (spec section
4.2: releasing the lock wakes exactly the longest-waiting suspended
acquirer). -/
inductive MStep {n : Nat} : MutexSys n → MutexSys n → Prop where
  | lockFree (s : MutexSys n) (i : Fin n) :
      s.phase i = .idle → s.holder = none →
      MStep s { s with phase := Function.update s.phase i .locked, holder := some i }
  | lockBusy (s : MutexSys n) (i j : Fin n) :
      s.phase i = .idle → s.holder = some j →
      MStep s { s with phase := Function.update s.phase i .waiting, queue := s.queue ++ [i] }
  | readStep (s : MutexSys n) (i : Fin n) :
      s.phase i = .locked →
      MStep s { s with phase := Function.update s.phase i .readDone,
                       localVal := Function.update s.localVal i s.counter }
  | writeStep (s : MutexSys n) (i : Fin n) :
      s.phase i = .readDone →
      MStep s { s with phase := Function.update s.phase i .writeDone,
                       counter := s.localVal i + 1 }
  | releaseFree (s : MutexSys n) (i : Fin n) :
      s.phase i = .writeDone → s.queue = [] →
      MStep s { s with phase := Function.update s.phase i .finished, holder := none }
  | releaseNext (s : MutexSys n) (i j : Fin n) (t : List (Fin n)) :
      s.phase i = .writeDone → s.queue = j :: t →
      MStep s { s with phase := Function.update (Function.update s.phase i .finished) j .locked,
                       holder := some j, queue := t }

/-- States an interleaving can reach from the initial one. -/
def MReachable (n : Nat) : MutexSys n → Prop :=
  Relation.ReflTransGen MStep (MutexSys.init n)

/-- No event is enabled: the scheduling has run to the end. -/
def MutexSys.stuck {n : Nat} (s : MutexSys n) : Prop :=
  ¬ ∃ s2, MStep s s2

/-- Weight of a control point: every event strictly drops the summed weight,
so no scheduling runs forever (no permanent starvation by livelock). -/
def TaskPhase.weight : TaskPhase → Nat
  | .idle => 5
  | .waiting => 4
  | .locked => 3
  | .readDone => 2
  | .writeDone => 1
  | .finished => 0

/-- Summed weight of all tasks. -/
def MutexSys.measure {n : Nat} (s : MutexSys n) : Nat :=
  ∑ i : Fin n, (s.phase i).weight

/-- The state after the first `m` tasks completed their whole
lock-increment-release in task order, one at a time. -/
def MutexSys.seqState (n m : Nat) : MutexSys n :=
  { phase := fun i => if i.val < m then .finished else .idle
    holder := none
    queue := []
    counter := min m n
    localVal := fun i => if i.val < m then i.val else 0 }

/-- Inductive invariant of the mutex system: a task is inside its critical
section exactly when it is the holder (so there is at most one); the queue
holds exactly the waiting tasks, without repetition; a free lock has no
waiter; the shared counter equals the number of tasks whose write already
happened; and a task that has read but not yet written still holds the value
it read. -/
def MInv {n : Nat} (s : MutexSys n) : Prop :=
  (∀ i, s.inCritical i ↔ s.holder = some i) ∧
  (∀ i ∈ s.queue, s.phase i = .waiting) ∧
  (∀ i, s.phase i = .waiting → i ∈ s.queue) ∧
  s.queue.Nodup ∧
  (s.holder = none → s.queue = []) ∧
  s.counter = (Finset.univ.filter
      fun j : Fin n => s.phase j = .writeDone ∨ s.phase j = .finished).card ∧
  (∀ i, s.phase i = .readDone → s.localVal i = s.counter)

/-! ## Theorems -/

/-- The two Fibonacci closures agree pointwise. -/
theorem fibServer_eq_fibWorker (n : Int) : fibServer n = fibWorker n := by
  rw [fibServer, fibWorker]
  by_cases h : n < 2
  · simp [h]
  · simp only [if_neg h]
    rw [fibServer_eq_fibWorker (n - 1), fibServer_eq_fibWorker (n - 2)]
termination_by n.toNat
decreasing_by
  all_goals omega

/-- C10: the Fibonacci function defined inside the /single route handler and
the one defined inside the worker closure are the same pure function: both
return n for every n below 2 (negative inputs included) and the sum of the two
preceding values otherwise, so equal complexity values give identical
results on the single-threaded endpoint and on a worker task. -/
theorem c10_fibonacci_single_worker_same :
    (∀ n : Int, fibServer n = fibWorker n) ∧
    (∀ n : Int, n < 2 → fibServer n = n ∧ fibWorker n = n) ∧
    (∀ n : Int, ¬ n < 2 →
      fibServer n = fibServer (n - 1) + fibServer (n - 2) ∧
      fibWorker n = fibWorker (n - 1) + fibWorker (n - 2)) := by
  refine ⟨fibServer_eq_fibWorker, fun n h => ⟨?_, ?_⟩, fun n h => ⟨?_, ?_⟩⟩
  · rw [fibServer]; simp [h]
  · rw [fibWorker]; simp [h]
  · rw [fibServer]; simp [h]
  · rw [fibWorker]; simp [h]

/-- C9: after resetSystemStats, every statistics field is back to its initial
value except lastUpdated, which is not restored to its initial null but set to
the timestamp of the reset itself. -/
theorem c9_reset_system_stats (s : SystemStats) (now : String) :
    (resetSystemStats s now).totalRequests = 0 ∧
    (resetSystemStats s now).totalComputeTime = 0 ∧
    (resetSystemStats s now).workerTaskCount = [] ∧
    (resetSystemStats s now).activeWorkers = 0 ∧
    (resetSystemStats s now).currentLeader = none ∧
    (resetSystemStats s now).lastUpdated = some now ∧
    (resetSystemStats s now).lastUpdated ≠ initialStats.lastUpdated := by
  simp [resetSystemStats, initialStats]

/-- C4, evaluated at the failing input: getSystemStatsSnapshot returns a
shallow spread, so the snapshot carries the same workerTaskCount reference as
the shared state (first conjunct); writing key w through the snapshot then
changes what the shared state reads at that key from none to some 42 (second
and third conjuncts), refuting the deep-copy claim.  Under the deep copy the
specification asks for (last two conjuncts) the snapshot gets a fresh
reference and the same write leaves the shared mapping untouched. -/
theorem c4_snapshot_shallow_aliasing_eval :
    getSystemStatsSnapshot ⟨5, 7, 0, some "t0", 1, none⟩ = ⟨5, 7, 0, some "t0", 1, none⟩ ∧
    heapRead ⟨fun _ => [], 1⟩ 0 "w" = none ∧
    heapRead (heapWrite ⟨fun _ => [], 1⟩
        (getSystemStatsSnapshot ⟨5, 7, 0, some "t0", 1, none⟩).workerTaskCountRef "w" 42)
      0 "w" = some 42 ∧
    (getSystemStatsSnapshotDeep ⟨5, 7, 0, some "t0", 1, none⟩ ⟨fun _ => [], 1⟩).1.workerTaskCountRef = 1 ∧
    heapRead (heapWrite
        (getSystemStatsSnapshotDeep ⟨5, 7, 0, some "t0", 1, none⟩ ⟨fun _ => [], 1⟩).2
        (getSystemStatsSnapshotDeep ⟨5, 7, 0, some "t0", 1, none⟩ ⟨fun _ => [], 1⟩).1.workerTaskCountRef
        "w" 42)
      0 "w" = none := by
  refine ⟨rfl, rfl, ?_, rfl, ?_⟩ <;> decide

/-- C5: the scoped guard of the mutex is disposed (the lock released) exactly
once on every exit path of the guarded scope of createWorkerTask: once when
the body returns normally, and once when it throws, whatever the dispose
itself does. -/
theorem c5_guard_disposed_exactly_once {σ ε α : Type} (guard : DisposableEntry σ ε) :
    (∀ a : α, (runGuarded guard (Except.ok a)).2 = [guard.rid]) ∧
    (∀ e : ε, (runGuarded (α := α) guard (Except.error e)).2 = [guard.rid]) := by
  constructor <;> intro x <;> rfl

/-- One successful protocol move preserves the ownership invariant. -/
theorem bufStep_inv (x y : BufState) (hstep : BufStep x y)
    (hx : x.accessCount ≤ 1 ∧ (x.tokenLive = true → x.moved = true)) :
    y.accessCount ≤ 1 ∧ (y.tokenLive = true → y.moved = true) := by
  cases hstep with
  | transferOk heq =>
    unfold BufState.transfer at heq
    by_cases hm : x.moved
    · simp [hm] at heq
    · simp [hm] at heq
      subst heq
      decide
  | materializeOk heq =>
    unfold BufState.materialize at heq
    by_cases ht : x.tokenLive
    · simp [ht] at heq
      have hmv : x.moved = true := hx.2 ht
      subst heq
      simp [BufState.accessCount, BufState.submitterAccess, BufState.receiverAccess, hmv]
    · simp [ht] at heq

/-- Protocol invariant of the transferable buffer: never more than one side
can reach the bytes, and a live token certifies the source was invalidated. -/
theorem bufReachable_inv (b : BufState) (h : BufReachable b) :
    b.accessCount ≤ 1 ∧ (b.tokenLive = true → b.moved = true) := by
  induction h with
  | refl => decide
  | tail _ hstep ih => exact bufStep_inv _ _ hstep ih

/-- C6: buffer ownership transfer is exactly-once: from a fresh buffer a
transfer succeeds and invalidates the source, a second transfer of the moved
buffer fails with AlreadyTransferredError, one materialize on the receiving
side succeeds, a second materialize finds the token consumed, and in every
reachable ownership state at most one side can access the byte storage (it is
never duplicated). -/
theorem c6_buffer_transfer_exactly_once :
    (BufState.fresh.transfer = Except.ok ⟨true, true, false⟩ ∧
     BufState.transfer ⟨true, true, false⟩ = Except.error .alreadyTransferred ∧
     BufState.materialize ⟨true, true, false⟩ = Except.ok ⟨true, false, true⟩ ∧
     BufState.materialize ⟨true, false, true⟩ = Except.error .tokenConsumed ∧
     BufState.transfer ⟨true, false, true⟩ = Except.error .alreadyTransferred ∧
     BufState.receiverAccess ⟨true, false, true⟩ = true ∧
     BufState.submitterAccess ⟨true, false, true⟩ = false) ∧
    (∀ b : BufState, BufReachable b → b.accessCount ≤ 1) :=
  ⟨⟨rfl, rfl, rfl, rfl, rfl, rfl, rfl⟩, fun b h => (bufReachable_inv b h).1⟩

/-- No lifecycle move leaves a Completed or Failed handle. -/
theorem handleStep_not_terminal {ρ ε : Type} (s s2 : HandleStatus ρ ε)
    (h : HandleStep s s2) : ¬ s.terminal := by
  cases h <;> rintro (⟨r, hr⟩ | ⟨e, he⟩) <;> simp_all

/-- Once terminal, the handle status never changes again. -/
theorem terminal_reach_eq {ρ ε : Type} (s s2 : HandleStatus ρ ε)
    (ht : s.terminal) (h : Relation.ReflTransGen HandleStep s s2) : s2 = s := by
  rcases Relation.ReflTransGen.cases_head h with rfl | ⟨c, hc, _⟩
  · rfl
  · exact absurd ht (handleStep_not_terminal s c hc)

/-- A terminal handle always has a joined outcome. -/
theorem terminal_joinOutcome_some {ρ ε : Type} (s : HandleStatus ρ ε)
    (ht : s.terminal) : joinOutcome s ≠ none := by
  rcases ht with ⟨r, rfl⟩ | ⟨e, rfl⟩ <;> simp [joinOutcome]

/-- C7: awaiting a task handle is idempotent: once a handle is Completed or
Failed, every later observation of it returns the very same outcome, and any
number of concurrent join calls that each observe the handle at or after its
resolution are all satisfied with that one outcome (never with a hung none). -/
theorem c7_join_idempotent {ρ ε : Type} :
    (∀ s s2 : HandleStatus ρ ε, s.terminal →
      Relation.ReflTransGen HandleStep s s2 →
      s2 = s ∧ joinOutcome s2 = joinOutcome s ∧ joinOutcome s ≠ none) ∧
    (∀ (s : HandleStatus ρ ε) (observed : List (HandleStatus ρ ε)), s.terminal →
      (∀ x ∈ observed, Relation.ReflTransGen HandleStep s x) →
      ∀ x ∈ observed, joinOutcome x = joinOutcome s ∧ joinOutcome x ≠ none) := by
  constructor
  · intro s s2 ht h
    have he := terminal_reach_eq s s2 ht h
    subst he
    exact ⟨rfl, rfl, terminal_joinOutcome_some s2 ht⟩
  · intro s observed ht hobs x hx
    have he := terminal_reach_eq s x ht (hobs x hx)
    subst he
    exact ⟨rfl, terminal_joinOutcome_some x ht⟩

/-- While a round stays short of participantCount, wait() only queues the
arrivals, in arrival order, and resolves nothing. -/
theorem waitAll_partial {ι : Type} (ws : List ι) (b : BarrierSt ι)
    (h : b.pending.length + ws.length < b.participantCount) :
    b.waitAll ws = ({ b with pending := b.pending ++ ws }, []) := by
  induction ws generalizing b with
  | nil => simp [BarrierSt.waitAll]
  | cons a rest ih =>
    have hne : ¬ (b.pending.length + 1 = b.participantCount) := by
      simp only [List.length_cons] at h
      omega
    have h2 : ({ b with pending := b.pending ++ [a] } : BarrierSt ι).pending.length +
        rest.length < ({ b with pending := b.pending ++ [a] } : BarrierSt ι).participantCount := by
      simp only [List.length_cons] at h
      simp only [List.length_append, List.length_cons, List.length_nil]
      omega
    simp only [BarrierSt.waitAll, BarrierSt.wait, if_neg hne]
    rw [ih _ h2]
    simp

/-- A round that receives exactly the arrivals it still needs completes: the
already-suspended waiters and all but the last arrival resolve with isLeader
false, the arrival completing the round resolves with isLeader true, and the
barrier resets with the round id incremented. -/
theorem waitAll_completes {ι : Type} (ws0 : List ι) (lst : ι) (b : BarrierSt ι)
    (h : b.pending.length + ws0.length + 1 = b.participantCount) :
    b.waitAll (ws0 ++ [lst]) =
      ({ b with round := b.round + 1, now := 0, pending := [] },
       (b.pending ++ ws0).map (fun p => (p, BarrierOutcome.released false b.round)) ++
         [(lst, BarrierOutcome.released true b.round)]) := by
  induction ws0 generalizing b with
  | nil =>
    have hc : b.pending.length + 1 = b.participantCount := by simpa using h
    simp [BarrierSt.waitAll, BarrierSt.wait, if_pos hc]
  | cons a rest ih =>
    have hne : ¬ (b.pending.length + 1 = b.participantCount) := by
      simp only [List.length_cons] at h
      omega
    have h2 : ({ b with pending := b.pending ++ [a] } : BarrierSt ι).pending.length +
        rest.length + 1 =
        ({ b with pending := b.pending ++ [a] } : BarrierSt ι).participantCount := by
      simp only [List.length_cons] at h
      simp only [List.length_append, List.length_cons, List.length_nil]
      omega
    have hrw := ih ({ b with pending := b.pending ++ [a] } : BarrierSt ι) h2
    simp only [List.cons_append, BarrierSt.waitAll, BarrierSt.wait, if_neg hne,
      List.append_eq] at hrw ⊢
    rw [hrw]
    simp

/-- Clock ticks on a round with no suspended waiter resolve or reject
nothing. -/
theorem runTicks_empty_pending {ι : Type} (m : Nat) (b : BarrierSt ι)
    (h : b.pending = []) :
    (b.runTicks m).2 = [] ∧ (b.runTicks m).1.pending = [] := by
  induction m generalizing b with
  | zero => simpa [BarrierSt.runTicks] using h
  | succ m ih =>
    have ht : b.tick = ({ b with now := b.now + 1 }, ([] : List (ι × BarrierOutcome))) := by
      unfold BarrierSt.tick
      by_cases hto : b.timeoutMs ≤ b.now + 1
      · simp [hto, h]
      · simp [hto]
    have hrest := ih ({ b with now := b.now + 1 } : BarrierSt ι) h
    simp only [BarrierSt.runTicks, ht]
    simpa using hrest

/-- Once enough ticks elapse for the configured timeout, a stalled round with
suspended waiters rejects every one of them with the timeout outcome and no
waiter stays pending. -/
theorem runTicks_fires {ι : Type} (m : Nat) (b : BarrierSt ι)
    (hne : b.pending ≠ []) (hm : b.timeoutMs ≤ b.now + m) (h1 : 1 ≤ m) :
    (b.runTicks m).2 = b.pending.map (fun p => (p, BarrierOutcome.timedOut b.round)) ∧
    (b.runTicks m).1.pending = [] := by
  induction m generalizing b with
  | zero => omega
  | succ m ih =>
    by_cases hto : b.timeoutMs ≤ b.now + 1
    · have hie : b.pending.isEmpty = false := by
        simpa [List.isEmpty_iff] using hne
      have ht : b.tick =
          (({ b with round := b.round + 1, now := 0, pending := [] } : BarrierSt ι),
           b.pending.map (fun p => (p, BarrierOutcome.timedOut b.round))) := by
        unfold BarrierSt.tick
        simp [hto, hie]
      have he := runTicks_empty_pending m
        ({ b with round := b.round + 1, now := 0, pending := [] } : BarrierSt ι) rfl
      simp only [BarrierSt.runTicks, ht]
      simp [he.1, he.2]
    · have hm1 : 1 ≤ m := by omega
      have ht : b.tick = (({ b with now := b.now + 1 } : BarrierSt ι),
          ([] : List (ι × BarrierOutcome))) := by
        unfold BarrierSt.tick
        simp [hto]
      have hrest := ih ({ b with now := b.now + 1 } : BarrierSt ι) hne (by simp; omega) hm1
      simp only [BarrierSt.runTicks, ht]
      simpa using hrest

/-- Exactly one wait call of a completed round carries the leader flag. -/
theorem countP_one_leader {ι : Type} (ps : List ι) (ldr : ι) (r : Nat) :
    ((ps.map (fun p => (p, BarrierOutcome.released false r)) ++
        [(ldr, BarrierOutcome.released true r)]).countP
      fun pr => isLeaderOutcome pr.2) = 1 := by
  induction ps with
  | nil => simp [List.countP_cons, isLeaderOutcome]
  | cons a t ih =>
    simp only [List.cons_append, List.map_cons, List.countP_cons, isLeaderOutcome]
    simp [isLeaderOutcome, ih]

/-- C1: for a barrier of participantCount k, a round of k wait() calls
resolves with exactly one isLeader true, on the call whose arrival makes the
arrived count reach k; the barrier then resets (no pending arrival, round id
incremented) and a second round of k new wait() calls again yields exactly one
leader, all of whose flags carry the new round id, so no leader flag leaks
across rounds. -/
theorem c1_barrier_exactly_one_leader {ι : Type} (timeout : Nat) (xs ys : List ι)
    (hx : xs ≠ []) (hy : ys ≠ []) (hxy : ys.length = xs.length) :
    ((BarrierSt.mk0 ι xs.length timeout).waitAll xs).2 =
        xs.dropLast.map (fun p => (p, BarrierOutcome.released false 0)) ++
          [(xs.getLast hx, BarrierOutcome.released true 0)] ∧
    (((BarrierSt.mk0 ι xs.length timeout).waitAll xs).2.countP
        fun pr => isLeaderOutcome pr.2) = 1 ∧
    ((BarrierSt.mk0 ι xs.length timeout).waitAll xs).1 =
        { participantCount := xs.length, timeoutMs := timeout, round := 1, now := 0,
          pending := [] } ∧
    (((BarrierSt.mk0 ι xs.length timeout).waitAll xs).1.waitAll ys).2 =
        ys.dropLast.map (fun p => (p, BarrierOutcome.released false 1)) ++
          [(ys.getLast hy, BarrierOutcome.released true 1)] ∧
    ((((BarrierSt.mk0 ι xs.length timeout).waitAll xs).1.waitAll ys).2.countP
        fun pr => isLeaderOutcome pr.2) = 1 ∧
    (∀ pr ∈ (((BarrierSt.mk0 ι xs.length timeout).waitAll xs).1.waitAll ys).2,
        ∃ isLdr, pr.2 = BarrierOutcome.released isLdr 1) := by
  have hxlen : 1 ≤ xs.length := List.length_pos.mpr hx
  have hylen : 1 ≤ ys.length := List.length_pos.mpr hy
  have hxs : xs.dropLast ++ [xs.getLast hx] = xs := List.dropLast_append_getLast hx
  have hys : ys.dropLast ++ [ys.getLast hy] = ys := List.dropLast_append_getLast hy
  have h1 := waitAll_completes xs.dropLast (xs.getLast hx)
    (BarrierSt.mk0 ι xs.length timeout)
    (by simp [BarrierSt.mk0, List.length_dropLast]; omega)
  rw [hxs] at h1
  have hout1 : ((BarrierSt.mk0 ι xs.length timeout).waitAll xs).2 =
      xs.dropLast.map (fun p => (p, BarrierOutcome.released false 0)) ++
        [(xs.getLast hx, BarrierOutcome.released true 0)] := by
    rw [h1]
    simp [BarrierSt.mk0]
  have hst1 : ((BarrierSt.mk0 ι xs.length timeout).waitAll xs).1 =
      { participantCount := xs.length, timeoutMs := timeout, round := 1, now := 0,
        pending := [] } := by
    rw [h1]
    simp [BarrierSt.mk0]
  have h2 := waitAll_completes ys.dropLast (ys.getLast hy)
    ({ participantCount := xs.length, timeoutMs := timeout, round := 1, now := 0,
       pending := [] } : BarrierSt ι)
    (by simp [List.length_dropLast]; omega)
  rw [hys] at h2
  have hout2 : (((BarrierSt.mk0 ι xs.length timeout).waitAll xs).1.waitAll ys).2 =
      ys.dropLast.map (fun p => (p, BarrierOutcome.released false 1)) ++
        [(ys.getLast hy, BarrierOutcome.released true 1)] := by
    rw [hst1, h2]
    simp
  refine ⟨hout1, ?_, hst1, hout2, ?_, ?_⟩
  · rw [hout1]
    exact countP_one_leader _ _ _
  · rw [hout2]
    exact countP_one_leader _ _ _
  · intro pr hpr
    rw [hout2] at hpr
    rcases List.mem_append.mp hpr with hm | hm
    · rcases List.mem_map.mp hm with ⟨p, _, rfl⟩
      exact ⟨false, rfl⟩
    · rcases List.mem_singleton.mp hm with rfl
      exact ⟨true, rfl⟩

/-- C1 at a concrete input: barrier of size 4, two successive rounds of four
wait() calls each, one leader per round. -/
theorem c1_barrier_witness :
    (((BarrierSt.mk0 Nat 4 50).waitAll [0, 1, 2, 3]).2.countP
        fun pr => isLeaderOutcome pr.2) = 1 ∧
    ((((BarrierSt.mk0 Nat 4 50).waitAll [0, 1, 2, 3]).1.waitAll [4, 5, 6, 7]).2.countP
        fun pr => isLeaderOutcome pr.2) = 1 :=
  ⟨(c1_barrier_exactly_one_leader 50 [0, 1, 2, 3] [4, 5, 6, 7] (by decide) (by decide)
      (by decide)).2.1,
   (c1_barrier_exactly_one_leader 50 [0, 1, 2, 3] [4, 5, 6, 7] (by decide) (by decide)
      (by decide)).2.2.2.2.1⟩

/-- C8: when fewer than participantCount wait() calls arrive in a round, none
of them resolves early; once the configured timeout elapses (one tick of
allowance beyond timeoutMs), every pending waiter of the round rejects with
the BarrierTimeoutError outcome and no waiter is left silently pending. -/
theorem c8_barrier_timeout_rejects_all {ι : Type} (k timeout : Nat) (ws : List ι)
    (hlt : ws.length < k) :
    ((BarrierSt.mk0 ι k timeout).waitAll ws).2 = [] ∧
    ((BarrierSt.mk0 ι k timeout).waitAll ws).1.pending = ws ∧
    (((BarrierSt.mk0 ι k timeout).waitAll ws).1.runTicks (timeout + 1)).2 =
        ws.map (fun p => (p, BarrierOutcome.timedOut 0)) ∧
    (((BarrierSt.mk0 ι k timeout).waitAll ws).1.runTicks (timeout + 1)).1.pending = [] := by
  have hp := waitAll_partial ws (BarrierSt.mk0 ι k timeout)
    (by simpa [BarrierSt.mk0] using hlt)
  rw [hp]
  refine ⟨rfl, by simp [BarrierSt.mk0], ?_, ?_⟩
  all_goals by_cases hw : ws = []
  · subst hw
    exact (runTicks_empty_pending (timeout + 1) _ (by simp [BarrierSt.mk0])).1
  · have := runTicks_fires (timeout + 1)
      { BarrierSt.mk0 ι k timeout with pending := (BarrierSt.mk0 ι k timeout).pending ++ ws }
      (by simpa [BarrierSt.mk0]) (by simp [BarrierSt.mk0]) (by omega)
    simpa [BarrierSt.mk0] using this.1
  · subst hw
    exact (runTicks_empty_pending (timeout + 1) _ (by simp [BarrierSt.mk0])).2
  · have := runTicks_fires (timeout + 1)
      { BarrierSt.mk0 ι k timeout with pending := (BarrierSt.mk0 ι k timeout).pending ++ ws }
      (by simpa [BarrierSt.mk0]) (by simp [BarrierSt.mk0]) (by omega)
    simpa [BarrierSt.mk0] using this.2

/-- C8 at a concrete input: barrier of size 4, timeout 3, only two arrivals;
both reject with the timeout outcome and none stays pending. -/
theorem c8_barrier_timeout_witness :
    (((BarrierSt.mk0 Nat 4 3).waitAll [10, 20]).1.runTicks 4).2 =
        [(10, BarrierOutcome.timedOut 0), (20, BarrierOutcome.timedOut 0)] ∧
    (((BarrierSt.mk0 Nat 4 3).waitAll [10, 20]).1.runTicks 4).1.pending = [] :=
  ⟨(c8_barrier_timeout_rejects_all 4 3 [10, 20] (by decide)).2.2.1,
   (c8_barrier_timeout_rejects_all 4 3 [10, 20] (by decide)).2.2.2⟩

/-- The initial mutex system satisfies the invariant. -/
theorem minv_init (n : Nat) : MInv (MutexSys.init n) := by
  refine ⟨?_, ?_, ?_, ?_, ?_, ?_, ?_⟩ <;>
    simp [MInv, MutexSys.init, MutexSys.inCritical]

/-- Every event of the mutex system preserves the invariant. -/
theorem minv_step {n : Nat} (s s2 : MutexSys n) (hstep : MStep s s2) (hs : MInv s) :
    MInv s2 := by
  obtain ⟨hcrit, hqw, hwq, hnd, hhq, hcnt, hloc⟩ := hs
  cases hstep with
  | lockFree i hidle hhold =>
    have hqe : s.queue = [] := hhq hhold
    have hnc : ∀ m, ¬ s.inCritical m := by
      intro m hc
      have := (hcrit m).mp hc
      rw [hhold] at this
      exact Option.noConfusion this
    refine ⟨?_, ?_, ?_, ?_, ?_, ?_, ?_⟩ <;> dsimp only
    · intro m
      by_cases hmi : m = i
      · subst hmi
        simp [MutexSys.inCritical, Function.update_same]
      · simp only [MutexSys.inCritical, Function.update_noteq hmi]
        have := hnc m
        simp only [MutexSys.inCritical] at this
        have him : ¬ i = m := fun h => hmi h.symm
        simp [this, him]
    · intro m hm
      rw [hqe] at hm
      exact absurd hm (List.not_mem_nil m)
    · intro m hm
      by_cases hmi : m = i
      · subst hmi
        rw [Function.update_same] at hm
        exact absurd hm (by simp)
      · rw [Function.update_noteq hmi] at hm
        exact hwq m hm
    · exact hnd
    · intro h
      exact hqe
    · rw [hcnt]
      congr 1
      apply Finset.filter_congr
      intro m _
      by_cases hmi : m = i
      · subst hmi
        simp [Function.update_same, hidle]
      · simp [Function.update_noteq hmi]
    · intro m hm
      by_cases hmi : m = i
      · subst hmi
        rw [Function.update_same] at hm
        exact absurd hm (by simp)
      · rw [Function.update_noteq hmi] at hm
        have : s.inCritical m := Or.inr (Or.inl hm)
        have := (hcrit m).mp this
        rw [hhold] at this
        exact Option.noConfusion this
  | lockBusy i j hidle hhold =>
    have hinq : i ∉ s.queue := by
      intro hmem
      have := hqw i hmem
      rw [hidle] at this
      exact TaskPhase.noConfusion this
    have hji : j ≠ i := by
      intro he
      have := (hcrit j).mpr hhold
      subst he
      simp [MutexSys.inCritical, hidle] at this
    refine ⟨?_, ?_, ?_, ?_, ?_, ?_, ?_⟩ <;> dsimp only
    · intro m
      by_cases hmi : m = i
      · subst hmi
        simp only [MutexSys.inCritical, Function.update_same]
        rw [hhold]
        have hjm : ¬ j = m := fun h => hji h
        simp [hjm]
      · simp only [MutexSys.inCritical, Function.update_noteq hmi]
        exact hcrit m
    · intro m hm
      rcases List.mem_append.mp hm with hm | hm
      · have hmw := hqw m hm
        have hmi : m ≠ i := by
          intro he
          rw [he, hidle] at hmw
          exact TaskPhase.noConfusion hmw
        rw [Function.update_noteq hmi]
        exact hmw
      · rcases List.mem_singleton.mp hm with rfl
        exact Function.update_same _ _ _
    · intro m hm
      by_cases hmi : m = i
      · subst hmi
        exact List.mem_append.mpr (Or.inr (List.mem_singleton.mpr rfl))
      · rw [Function.update_noteq hmi] at hm
        exact List.mem_append.mpr (Or.inl (hwq m hm))
    · simp [List.nodup_append, hnd, hinq]
    · intro h
      rw [hhold] at h
      exact Option.noConfusion h
    · rw [hcnt]
      congr 1
      apply Finset.filter_congr
      intro m _
      by_cases hmi : m = i
      · subst hmi
        simp [Function.update_same, hidle]
      · simp [Function.update_noteq hmi]
    · intro m hm
      by_cases hmi : m = i
      · subst hmi
        rw [Function.update_same] at hm
        exact absurd hm (by simp)
      · rw [Function.update_noteq hmi] at hm
        exact hloc m hm
  | readStep i hlock =>
    have hhold : s.holder = some i := (hcrit i).mp (Or.inl hlock)
    have hnotherc : ∀ m, m ≠ i → ¬ s.inCritical m := by
      intro m hmi hc
      have := (hcrit m).mp hc
      rw [hhold] at this
      exact hmi (Option.some_inj.mp this).symm
    refine ⟨?_, ?_, ?_, ?_, ?_, ?_, ?_⟩ <;> dsimp only
    · intro m
      by_cases hmi : m = i
      · subst hmi
        simp [MutexSys.inCritical, Function.update_same, hhold]
      · simp only [MutexSys.inCritical, Function.update_noteq hmi]
        have := hnotherc m hmi
        simp only [MutexSys.inCritical] at this
        rw [hhold]
        have him : ¬ i = m := fun h => hmi h.symm
        simp [this, him]
    · intro m hm
      have hmw := hqw m hm
      have hmi : m ≠ i := by
        intro he
        rw [he, hlock] at hmw
        exact TaskPhase.noConfusion hmw
      rw [Function.update_noteq hmi]
      exact hmw
    · intro m hm
      by_cases hmi : m = i
      · subst hmi
        rw [Function.update_same] at hm
        exact absurd hm (by simp)
      · rw [Function.update_noteq hmi] at hm
        exact hwq m hm
    · exact hnd
    · intro h
      rw [hhold] at h
      exact Option.noConfusion h
    · rw [hcnt]
      congr 1
      apply Finset.filter_congr
      intro m _
      by_cases hmi : m = i
      · subst hmi
        simp [Function.update_same, hlock]
      · simp [Function.update_noteq hmi]
    · intro m hm
      by_cases hmi : m = i
      · subst hmi
        rw [Function.update_same]
      · rw [Function.update_noteq hmi] at hm
        exact absurd (Or.inr (Or.inl hm)) (hnotherc m hmi)
  | writeStep i hrd =>
    have hhold : s.holder = some i := (hcrit i).mp (Or.inr (Or.inl hrd))
    have hnotherc : ∀ m, m ≠ i → ¬ s.inCritical m := by
      intro m hmi hc
      have := (hcrit m).mp hc
      rw [hhold] at this
      exact hmi (Option.some_inj.mp this).symm
    have hlv : s.localVal i = s.counter := hloc i hrd
    refine ⟨?_, ?_, ?_, ?_, ?_, ?_, ?_⟩ <;> dsimp only
    · intro m
      by_cases hmi : m = i
      · subst hmi
        simp [MutexSys.inCritical, Function.update_same, hhold]
      · simp only [MutexSys.inCritical, Function.update_noteq hmi]
        have := hnotherc m hmi
        simp only [MutexSys.inCritical] at this
        rw [hhold]
        have him : ¬ i = m := fun h => hmi h.symm
        simp [this, him]
    · intro m hm
      have hmw := hqw m hm
      have hmi : m ≠ i := by
        intro he
        rw [he, hrd] at hmw
        exact TaskPhase.noConfusion hmw
      rw [Function.update_noteq hmi]
      exact hmw
    · intro m hm
      by_cases hmi : m = i
      · subst hmi
        rw [Function.update_same] at hm
        exact absurd hm (by simp)
      · rw [Function.update_noteq hmi] at hm
        exact hwq m hm
    · exact hnd
    · intro h
      rw [hhold] at h
      exact Option.noConfusion h
    · have hset : (Finset.univ.filter
          fun j : Fin n => Function.update s.phase i TaskPhase.writeDone j = .writeDone ∨
            Function.update s.phase i TaskPhase.writeDone j = .finished) =
          insert i (Finset.univ.filter
            fun j : Fin n => s.phase j = .writeDone ∨ s.phase j = .finished) := by
        ext m
        by_cases hmi : m = i
        · subst hmi
          simp [Function.update_same]
        · simp [Function.update_noteq hmi, hmi]
      have hnotin : i ∉ (Finset.univ.filter
          fun j : Fin n => s.phase j = .writeDone ∨ s.phase j = .finished) := by
        simp [hrd]
      simp only [hset]
      rw [Finset.card_insert_of_not_mem hnotin, hlv, hcnt]
    · intro m hm
      by_cases hmi : m = i
      · subst hmi
        rw [Function.update_same] at hm
        exact absurd hm (by simp)
      · rw [Function.update_noteq hmi] at hm
        exact absurd (Or.inr (Or.inl hm)) (hnotherc m hmi)
  | releaseFree i hwd hqe =>
    have hhold : s.holder = some i := (hcrit i).mp (Or.inr (Or.inr hwd))
    have hnotherc : ∀ m, m ≠ i → ¬ s.inCritical m := by
      intro m hmi hc
      have := (hcrit m).mp hc
      rw [hhold] at this
      exact hmi (Option.some_inj.mp this).symm
    refine ⟨?_, ?_, ?_, ?_, ?_, ?_, ?_⟩ <;> dsimp only
    · intro m
      by_cases hmi : m = i
      · subst hmi
        simp [MutexSys.inCritical, Function.update_same]
      · simp only [MutexSys.inCritical, Function.update_noteq hmi]
        have := hnotherc m hmi
        simp only [MutexSys.inCritical] at this
        simp [this]
    · intro m hm
      rw [hqe] at hm
      exact absurd hm (List.not_mem_nil m)
    · intro m hm
      by_cases hmi : m = i
      · subst hmi
        rw [Function.update_same] at hm
        exact absurd hm (by simp)
      · rw [Function.update_noteq hmi] at hm
        exact hwq m hm
    · rw [hqe] at hnd ⊢
      exact hnd
    · intro _
      exact hqe
    · rw [hcnt]
      congr 1
      apply Finset.filter_congr
      intro m _
      by_cases hmi : m = i
      · subst hmi
        simp [Function.update_same, hwd]
      · simp [Function.update_noteq hmi]
    · intro m hm
      by_cases hmi : m = i
      · subst hmi
        rw [Function.update_same] at hm
        exact absurd hm (by simp)
      · rw [Function.update_noteq hmi] at hm
        exact absurd (Or.inr (Or.inl hm)) (hnotherc m hmi)
  | releaseNext i j t hwd hq =>
    have hhold : s.holder = some i := (hcrit i).mp (Or.inr (Or.inr hwd))
    have hnotherc : ∀ m, m ≠ i → ¬ s.inCritical m := by
      intro m hmi hc
      have := (hcrit m).mp hc
      rw [hhold] at this
      exact hmi (Option.some_inj.mp this).symm
    have hjq : j ∈ s.queue := by
      rw [hq]
      exact List.mem_cons_self j t
    have hjw : s.phase j = .waiting := hqw j hjq
    have hji : j ≠ i := by
      intro he
      rw [he, hwd] at hjw
      exact TaskPhase.noConfusion hjw
    have hjt : j ∉ t := by
      rw [hq] at hnd
      exact (List.nodup_cons.mp hnd).1
    have hndt : t.Nodup := by
      rw [hq] at hnd
      exact (List.nodup_cons.mp hnd).2
    refine ⟨?_, ?_, ?_, ?_, ?_, ?_, ?_⟩ <;> dsimp only
    · intro m
      simp only [MutexSys.inCritical]
      by_cases hmj : m = j
      · subst hmj
        simp [Function.update_same]
      · simp only [Function.update_noteq hmj]
        by_cases hmi : m = i
        · subst hmi
          simp only [Function.update_same]
          have hjm : ¬ j = m := fun h => hmj h.symm
          simp [hjm]
        · simp only [Function.update_noteq hmi]
          have := hnotherc m hmi
          simp only [MutexSys.inCritical] at this
          have hjm : ¬ j = m := fun h => hmj h.symm
          simp [this, hjm]
    · intro m hm
      have hmt : m ∈ t := hm
      have hmq : m ∈ s.queue := by
        rw [hq]
        exact List.mem_cons_of_mem j hmt
      have hmw := hqw m hmq
      have hmj : m ≠ j := fun he => hjt (he ▸ hmt)
      have hmi : m ≠ i := by
        intro he
        rw [he, hwd] at hmw
        exact TaskPhase.noConfusion hmw
      rw [Function.update_noteq hmj, Function.update_noteq hmi]
      exact hmw
    · intro m hm
      by_cases hmj : m = j
      · subst hmj
        rw [Function.update_same] at hm
        exact absurd hm (by simp)
      · rw [Function.update_noteq hmj] at hm
        by_cases hmi : m = i
        · subst hmi
          rw [Function.update_same] at hm
          exact absurd hm (by simp)
        · rw [Function.update_noteq hmi] at hm
          have := hwq m hm
          rw [hq] at this
          rcases List.mem_cons.mp this with he | ht2
          · exact absurd he hmj
          · exact ht2
    · exact hndt
    · intro h
      exact Option.noConfusion h
    · rw [hcnt]
      congr 1
      apply Finset.filter_congr
      intro m _
      by_cases hmj : m = j
      · subst hmj
        simp [Function.update_same, hjw]
      · rw [Function.update_noteq hmj]
        by_cases hmi : m = i
        · subst hmi
          simp [Function.update_same, hwd]
        · rw [Function.update_noteq hmi]
    · intro m hm
      by_cases hmj : m = j
      · subst hmj
        rw [Function.update_same] at hm
        exact absurd hm (by simp)
      · rw [Function.update_noteq hmj] at hm
        by_cases hmi : m = i
        · subst hmi
          rw [Function.update_same] at hm
          exact absurd hm (by simp)
        · rw [Function.update_noteq hmi] at hm
          exact absurd (Or.inr (Or.inl hm)) (hnotherc m hmi)

/-- Every reachable state of the mutex system satisfies the invariant. -/
theorem minv_reachable {n : Nat} (s : MutexSys n) (h : MReachable n s) : MInv s := by
  induction h with
  | refl => exact minv_init n
  | tail _ hstep ih => exact minv_step _ _ hstep ih

/-- Every event strictly decreases the summed phase weight, so no scheduling
of the mutex system can run forever. -/
theorem mstep_measure {n : Nat} (s s2 : MutexSys n) (hinv : MInv s) (hstep : MStep s s2) :
    s2.measure < s.measure := by
  obtain ⟨hcrit, hqw, _, _, _, _, _⟩ := hinv
  cases hstep with
  | lockFree i hidle hhold =>
    apply Finset.sum_lt_sum
    · intro m _
      by_cases hmi : m = i
      · subst hmi
        simp [Function.update_same, hidle, TaskPhase.weight]
      · simp [Function.update_noteq hmi]
    · exact ⟨i, Finset.mem_univ i,
        by simp [Function.update_same, hidle, TaskPhase.weight]⟩
  | lockBusy i j hidle hhold =>
    apply Finset.sum_lt_sum
    · intro m _
      by_cases hmi : m = i
      · subst hmi
        simp [Function.update_same, hidle, TaskPhase.weight]
      · simp [Function.update_noteq hmi]
    · exact ⟨i, Finset.mem_univ i,
        by simp [Function.update_same, hidle, TaskPhase.weight]⟩
  | readStep i hlock =>
    apply Finset.sum_lt_sum
    · intro m _
      by_cases hmi : m = i
      · subst hmi
        simp [Function.update_same, hlock, TaskPhase.weight]
      · simp [Function.update_noteq hmi]
    · exact ⟨i, Finset.mem_univ i,
        by simp [Function.update_same, hlock, TaskPhase.weight]⟩
  | writeStep i hrd =>
    apply Finset.sum_lt_sum
    · intro m _
      by_cases hmi : m = i
      · subst hmi
        simp [Function.update_same, hrd, TaskPhase.weight]
      · simp [Function.update_noteq hmi]
    · exact ⟨i, Finset.mem_univ i,
        by simp [Function.update_same, hrd, TaskPhase.weight]⟩
  | releaseFree i hwd hqe =>
    apply Finset.sum_lt_sum
    · intro m _
      by_cases hmi : m = i
      · subst hmi
        simp [Function.update_same, hwd, TaskPhase.weight]
      · simp [Function.update_noteq hmi]
    · exact ⟨i, Finset.mem_univ i,
        by simp [Function.update_same, hwd, TaskPhase.weight]⟩
  | releaseNext i j t hwd hq =>
    have hjw : s.phase j = .waiting := hqw j (by rw [hq]; exact List.mem_cons_self j t)
    have hji : j ≠ i := by
      intro he
      rw [he, hwd] at hjw
      exact TaskPhase.noConfusion hjw
    apply Finset.sum_lt_sum
    · intro m _
      by_cases hmj : m = j
      · subst hmj
        simp [Function.update_same, hjw, TaskPhase.weight]
      · dsimp only
        rw [Function.update_noteq hmj]
        by_cases hmi : m = i
        · subst hmi
          simp [Function.update_same, hwd, TaskPhase.weight]
        · simp [Function.update_noteq hmi]
    · refine ⟨i, Finset.mem_univ i, ?_⟩
      dsimp only
      rw [Function.update_noteq (fun h => hji h.symm)]
      simp [Function.update_same, hwd, TaskPhase.weight]

/-- Under the invariant, a state where no event is enabled has every task
finished: nobody is stuck waiting forever. -/
theorem stuck_all_finished {n : Nat} (s : MutexSys n) (hinv : MInv s)
    (hstuck : s.stuck) (i : Fin n) : s.phase i = .finished := by
  obtain ⟨hcrit, hqw, hwq, hnd, hhq, hcnt, hloc⟩ := hinv
  by_contra hni
  apply hstuck
  cases hph : s.phase i with
  | idle =>
    cases hh : s.holder with
    | none => exact ⟨_, MStep.lockFree s i hph hh⟩
    | some j => exact ⟨_, MStep.lockBusy s i j hph hh⟩
  | waiting =>
    have hmem := hwq i hph
    have hqn : s.queue ≠ [] := by
      intro he
      rw [he] at hmem
      exact List.not_mem_nil i hmem
    have hh : ∃ h0, s.holder = some h0 := by
      cases hh : s.holder with
      | none => exact absurd (hhq hh) hqn
      | some h0 => exact ⟨h0, rfl⟩
    obtain ⟨h0, hh0⟩ := hh
    have hc : s.inCritical h0 := (hcrit h0).mpr hh0
    rcases hc with hl | hr | hw2
    · exact ⟨_, MStep.readStep s h0 hl⟩
    · exact ⟨_, MStep.writeStep s h0 hr⟩
    · cases hq : s.queue with
      | nil => exact absurd hq hqn
      | cons j t => exact ⟨_, MStep.releaseNext s h0 j t hw2 hq⟩
  | locked => exact ⟨_, MStep.readStep s i hph⟩
  | readDone => exact ⟨_, MStep.writeStep s i hph⟩
  | writeDone =>
    cases hq : s.queue with
    | nil => exact ⟨_, MStep.releaseFree s i hph hq⟩
    | cons j t => exact ⟨_, MStep.releaseNext s i j t hph hq⟩
  | finished => exact absurd hph hni

/-- The only event that wakes a suspended waiter wakes the head of the FIFO
queue: the longest-waiting suspended acquirer. -/
theorem fifo_head_resumed {n : Nat} (s s2 : MutexSys n) (hstep : MStep s s2) (j : Fin n)
    (hw : s.phase j = .waiting) (hw2 : s2.phase j ≠ .waiting) : s.queue.head? = some j := by
  cases hstep with
  | lockFree i hidle hhold =>
    exfalso
    apply hw2
    dsimp only
    have hji : j ≠ i := by
      intro he
      rw [he, hidle] at hw
      exact TaskPhase.noConfusion hw
    rw [Function.update_noteq hji]
    exact hw
  | lockBusy i j2 hidle hhold =>
    exfalso
    apply hw2
    dsimp only
    by_cases hji : j = i
    · subst hji
      exact Function.update_same _ _ _
    · rw [Function.update_noteq hji]
      exact hw
  | readStep i hlock =>
    exfalso
    apply hw2
    dsimp only
    have hji : j ≠ i := by
      intro he
      rw [he, hlock] at hw
      exact TaskPhase.noConfusion hw
    rw [Function.update_noteq hji]
    exact hw
  | writeStep i hrd =>
    exfalso
    apply hw2
    dsimp only
    have hji : j ≠ i := by
      intro he
      rw [he, hrd] at hw
      exact TaskPhase.noConfusion hw
    rw [Function.update_noteq hji]
    exact hw
  | releaseFree i hwd hqe =>
    exfalso
    apply hw2
    dsimp only
    have hji : j ≠ i := by
      intro he
      rw [he, hwd] at hw
      exact TaskPhase.noConfusion hw
    rw [Function.update_noteq hji]
    exact hw
  | releaseNext i j0 t hwd hq =>
    by_cases hjj : j = j0
    · subst hjj
      rw [hq]
      rfl
    · exfalso
      apply hw2
      dsimp only
      have hji : j ≠ i := by
        intro he
        rw [he, hwd] at hw
        exact TaskPhase.noConfusion hw
      rw [Function.update_noteq hjj, Function.update_noteq hji]
      exact hw

/-- A lock() call that finds the lock busy suspends at the back of the FIFO
queue. -/
theorem enqueue_at_back {n : Nat} (s s2 : MutexSys n) (hstep : MStep s s2) (j : Fin n)
    (hidle : s.phase j = .idle) (hw2 : s2.phase j = .waiting) :
    s2.queue = s.queue ++ [j] := by
  cases hstep with
  | lockFree i hpi hh =>
    exfalso
    dsimp only at hw2
    by_cases hji : j = i
    · subst hji
      rw [Function.update_same] at hw2
      exact TaskPhase.noConfusion hw2
    · rw [Function.update_noteq hji, hidle] at hw2
      exact TaskPhase.noConfusion hw2
  | lockBusy i j2 hpi hh =>
    dsimp only at hw2 ⊢
    by_cases hji : j = i
    · subst hji
      rfl
    · exfalso
      rw [Function.update_noteq hji, hidle] at hw2
      exact TaskPhase.noConfusion hw2
  | readStep i hpi =>
    exfalso
    dsimp only at hw2
    by_cases hji : j = i
    · subst hji
      rw [Function.update_same] at hw2
      exact TaskPhase.noConfusion hw2
    · rw [Function.update_noteq hji, hidle] at hw2
      exact TaskPhase.noConfusion hw2
  | writeStep i hpi =>
    exfalso
    dsimp only at hw2
    by_cases hji : j = i
    · subst hji
      rw [Function.update_same] at hw2
      exact TaskPhase.noConfusion hw2
    · rw [Function.update_noteq hji, hidle] at hw2
      exact TaskPhase.noConfusion hw2
  | releaseFree i hpi hqe =>
    exfalso
    dsimp only at hw2
    by_cases hji : j = i
    · subst hji
      rw [Function.update_same] at hw2
      exact TaskPhase.noConfusion hw2
    · rw [Function.update_noteq hji, hidle] at hw2
      exact TaskPhase.noConfusion hw2
  | releaseNext i j0 t hpi hq =>
    exfalso
    dsimp only at hw2
    by_cases hjj : j = j0
    · subst hjj
      rw [Function.update_same] at hw2
      exact TaskPhase.noConfusion hw2
    · rw [Function.update_noteq hjj] at hw2
      by_cases hji : j = i
      · subst hji
        rw [Function.update_same] at hw2
        exact TaskPhase.noConfusion hw2
      · rw [Function.update_noteq hji, hidle] at hw2
        exact TaskPhase.noConfusion hw2

/-- A task reaches the finished phase only by releasing a lock it holds. -/
theorem finish_only_holder {n : Nat} (s s2 : MutexSys n) (hinv : MInv s)
    (hstep : MStep s s2) (j : Fin n) (hnf : s.phase j ≠ .finished)
    (hf : s2.phase j = .finished) : s.holder = some j := by
  obtain ⟨hcrit, _, _, _, _, _, _⟩ := hinv
  cases hstep with
  | lockFree i hpi hh =>
    exfalso
    dsimp only at hf
    by_cases hji : j = i
    · subst hji
      rw [Function.update_same] at hf
      exact TaskPhase.noConfusion hf
    · rw [Function.update_noteq hji] at hf
      exact hnf hf
  | lockBusy i j2 hpi hh =>
    exfalso
    dsimp only at hf
    by_cases hji : j = i
    · subst hji
      rw [Function.update_same] at hf
      exact TaskPhase.noConfusion hf
    · rw [Function.update_noteq hji] at hf
      exact hnf hf
  | readStep i hpi =>
    exfalso
    dsimp only at hf
    by_cases hji : j = i
    · subst hji
      rw [Function.update_same] at hf
      exact TaskPhase.noConfusion hf
    · rw [Function.update_noteq hji] at hf
      exact hnf hf
  | writeStep i hpi =>
    exfalso
    dsimp only at hf
    by_cases hji : j = i
    · subst hji
      rw [Function.update_same] at hf
      exact TaskPhase.noConfusion hf
    · rw [Function.update_noteq hji] at hf
      exact hnf hf
  | releaseFree i hpi hqe =>
    dsimp only at hf
    by_cases hji : j = i
    · subst hji
      exact (hcrit j).mp (Or.inr (Or.inr hpi))
    · exfalso
      rw [Function.update_noteq hji] at hf
      exact hnf hf
  | releaseNext i j0 t hpi hq =>
    dsimp only at hf
    by_cases hjj : j = j0
    · exfalso
      subst hjj
      rw [Function.update_same] at hf
      exact TaskPhase.noConfusion hf
    · rw [Function.update_noteq hjj] at hf
      by_cases hji : j = i
      · subst hji
        exact (hcrit j).mp (Or.inr (Or.inr hpi))
      · exfalso
        rw [Function.update_noteq hji] at hf
        exact hnf hf

/-- C2: the async mutex gives mutual exclusion and liveness: in every
reachable state at most one task is inside its critical section; every event
strictly decreases a finite measure, so no scheduling runs forever; when no
event is enabled every task has finished, having held the lock on the way
(last conjunct: finishing requires holding), so all N callers eventually
acquire the lock; the only waiter an event resumes is the FIFO queue head (the
longest-waiting one), and a lock() call that finds the lock busy suspends at
the back of the queue. -/
theorem c2_mutex_exclusion_fifo_liveness (n : Nat) :
    (∀ s : MutexSys n, MReachable n s → ∀ i j, s.inCritical i → s.inCritical j → i = j) ∧
    (∀ s s2 : MutexSys n, MReachable n s → MStep s s2 →
      MutexSys.measure s2 < MutexSys.measure s) ∧
    (∀ s : MutexSys n, MReachable n s → s.stuck → ∀ i, s.phase i = .finished) ∧
    (∀ s s2 : MutexSys n, MReachable n s → MStep s s2 →
      ∀ j, s.phase j = .waiting → s2.phase j ≠ .waiting → s.queue.head? = some j) ∧
    (∀ s s2 : MutexSys n, MReachable n s → MStep s s2 →
      ∀ j, s.phase j = .idle → s2.phase j = .waiting → s2.queue = s.queue ++ [j]) ∧
    (∀ s s2 : MutexSys n, MReachable n s → MStep s s2 →
      ∀ j, s.phase j ≠ .finished → s2.phase j = .finished → s.holder = some j) := by
  refine ⟨?_, ?_, ?_, ?_, ?_, ?_⟩
  · intro s hr i j hi hj
    have hinv := minv_reachable s hr
    have h1 := (hinv.1 i).mp hi
    have h2 := (hinv.1 j).mp hj
    rw [h1] at h2
    exact Option.some_inj.mp h2
  · intro s s2 hr hstep
    exact mstep_measure s s2 (minv_reachable s hr) hstep
  · intro s hr hstuck i
    exact stuck_all_finished s (minv_reachable s hr) hstuck i
  · intro s s2 _ hstep j hw hw2
    exact fifo_head_resumed s s2 hstep j hw hw2
  · intro s s2 _ hstep j hi hw
    exact enqueue_at_back s s2 hstep j hi hw
  · intro s s2 hr hstep j hnf hf
    exact finish_only_holder s s2 (minv_reachable s hr) hstep j hnf hf

/-- C3: with 100 worker tasks each locking the mutex and incrementing
totalRequests by one (a read of the field followed by a write of the read
value plus one, both inside the critical section), every scheduling that runs
until no event is enabled ends with the counter exactly 100. -/
theorem c3_counter_exactly_100 (s : MutexSys 100) (hr : MReachable 100 s)
    (hstuck : s.stuck) : s.counter = 100 := by
  have hinv := minv_reachable s hr
  have hall : ∀ i : Fin 100, s.phase i = .finished :=
    stuck_all_finished s hinv hstuck
  have hcnt := hinv.2.2.2.2.2.1
  rw [hcnt]
  have hfe : (Finset.univ.filter
      fun j : Fin 100 => s.phase j = .writeDone ∨ s.phase j = .finished) =
      Finset.univ :=
    Finset.filter_eq_self.mpr fun x _ => Or.inr (hall x)
  rw [hfe, Finset.card_univ, Fintype.card_fin]

/-- Field-wise extensionality for mutex system states. -/
theorem mutexSysExt {n : Nat} (a b : MutexSys n) (hp : a.phase = b.phase)
    (hh : a.holder = b.holder) (hq : a.queue = b.queue) (hc : a.counter = b.counter)
    (hl : a.localVal = b.localVal) : a = b := by
  cases a
  cases b
  simp_all

/-- Before any task ran, the sequential state is the initial state. -/
theorem seqState_zero (n : Nat) : MutexSys.seqState n 0 = MutexSys.init n := by
  apply mutexSysExt
  · funext i
    simp [MutexSys.seqState, MutexSys.init]
  · rfl
  · rfl
  · simp [MutexSys.seqState, MutexSys.init]
  · funext i
    simp [MutexSys.seqState, MutexSys.init]

/-- One whole lock-read-write-release of task m extends the sequential run. -/
theorem seqState_step (n m : Nat) (hm : m < n) :
    Relation.ReflTransGen MStep (MutexSys.seqState n m) (MutexSys.seqState n (m + 1)) := by
  refine Relation.ReflTransGen.head
    (MStep.lockFree _ ⟨m, hm⟩ (by simp [MutexSys.seqState]) rfl) ?_
  refine Relation.ReflTransGen.head
    (MStep.readStep _ ⟨m, hm⟩ (by simp [Function.update_same])) ?_
  refine Relation.ReflTransGen.head
    (MStep.writeStep _ ⟨m, hm⟩ (by simp [Function.update_same])) ?_
  refine Relation.ReflTransGen.head
    (MStep.releaseFree _ ⟨m, hm⟩ (by simp [Function.update_same]) rfl) ?_
  have hcast : ∀ a b : MutexSys n, a = b → Relation.ReflTransGen MStep a b := by
    intro a b h
    rw [h]
  apply hcast
  apply mutexSysExt
  · funext j
    dsimp only
    simp only [Function.update_idem]
    by_cases hji : j = (⟨m, hm⟩ : Fin n)
    · subst hji
      simp [Function.update_same, MutexSys.seqState]
    · rw [Function.update_noteq hji]
      have hv : j.val ≠ m := fun h => hji (Fin.ext h)
      simp only [MutexSys.seqState]
      split_ifs <;> first | rfl | omega
  · rfl
  · rfl
  · dsimp only
    simp only [Function.update_same]
    simp only [MutexSys.seqState]
    omega
  · funext j
    dsimp only
    by_cases hji : j = (⟨m, hm⟩ : Fin n)
    · subst hji
      rw [Function.update_same]
      simp only [MutexSys.seqState]
      simp
      omega
    · rw [Function.update_noteq hji]
      have hv : j.val ≠ m := fun h => hji (Fin.ext h)
      simp only [MutexSys.seqState]
      split_ifs <;> first | rfl | omega

/-- Every sequential state is reachable. -/
theorem seqState_reachable (n m : Nat) (hm : m ≤ n) :
    MReachable n (MutexSys.seqState n m) := by
  induction m with
  | zero =>
    rw [seqState_zero]
    exact Relation.ReflTransGen.refl
  | succ m ih =>
    exact Relation.ReflTransGen.trans (ih (by omega)) (seqState_step n m (by omega))

/-- Once every task finished, no event is enabled. -/
theorem seqState_stuck (n : Nat) : (MutexSys.seqState n n).stuck := by
  intro hex
  obtain ⟨s2, hstep⟩ := hex
  have hph : ∀ i : Fin n, (MutexSys.seqState n n).phase i = TaskPhase.finished := by
    intro i
    simp [MutexSys.seqState, i.isLt]
  cases hstep with
  | lockFree i hpi _ =>
    rw [hph i] at hpi
    exact TaskPhase.noConfusion hpi
  | lockBusy i j hpi _ =>
    rw [hph i] at hpi
    exact TaskPhase.noConfusion hpi
  | readStep i hpi =>
    rw [hph i] at hpi
    exact TaskPhase.noConfusion hpi
  | writeStep i hpi =>
    rw [hph i] at hpi
    exact TaskPhase.noConfusion hpi
  | releaseFree i hpi _ =>
    rw [hph i] at hpi
    exact TaskPhase.noConfusion hpi
  | releaseNext i j t hpi _ =>
    rw [hph i] at hpi
    exact TaskPhase.noConfusion hpi

/-- C3 at a concrete run: the schedule that runs the 100 tasks one after the
other reaches a state with no event enabled whose counter is exactly 100. -/
theorem c3_counter_witness : (MutexSys.seqState 100 100).counter = 100 :=
  c3_counter_exactly_100 (MutexSys.seqState 100 100)
    (seqState_reachable 100 100 (le_refl 100)) (seqState_stuck 100)

end MTBench
